import Mathlib

/-!
Shallow embedding of the Wiegand frame decoder of `wiegand-go`
(current implementation: the version with `decodeBits`, matching
`wiegand_test.go`).  Bits are Go `byte`s, modelled as `Nat`; the Go
`uint64` accumulator wraps modulo `2 ^ 64`.
-/

set_option maxRecDepth 30000

namespace Wiegand

/-- Modulus of Go `uint64` arithmetic. -/
def u64 : Nat := 2 ^ 64

/-- Default maximum number of bits for a Wiegand frame (`DefaultMaxBits` in the source). -/
def DefaultMaxBits : Nat := 26

/-- Embedding of `checkParity(bits, start, length, even)`: returns `false` when the
range `[start, start+length)` exceeds the slice, otherwise counts the bits equal
to `1` in that range and compares the count's parity with the `even` flag. -/
def checkParity (bits : List Nat) (start length : Nat) (even : Bool) : Bool :=
  if start + length > bits.length then
    false
  else
    let parity := ((bits.drop start).take length).count 1
    if even then parity % 2 == 0 else parity % 2 == 1

/-- Error taxonomy of `decodeBits`: the two range errors and the invalid-bit error,
in the order the source checks them. -/
inductive DecodeErr where
  | tooShortForTag : DecodeErr
  | siteRangeExceeds : DecodeErr
  | invalidBitValue : DecodeErr
deriving DecidableEq

/-- The accumulation loop of `decodeBits`:
`for i := 0; i < length; i++ { acc = (acc << 1) | uint64(bits[start+i]) }`
on a Go `uint64`, so the shift wraps modulo `2 ^ 64`. -/
def accumBits (bits : List Nat) (start length : Nat) : Nat :=
  (List.range length).foldl (fun acc i => ((acc * 2) % u64) ||| bits.getD (start + i) 0) 0

/-- Embedding of
`decodeBits(bits, siteCodeStart, siteCodeLength, tagStart, tagLength) (string, string, error)`.
The Go function returns `(siteCode, tagValue, err)`; errors come with empty strings,
in the source's check order: tag range, then site-code range, then bit validity. -/
def decodeBits (bits : List Nat) (siteCodeStart siteCodeLength tagStart tagLength : Nat) :
    String × String × Option DecodeErr :=
  if bits.length < tagStart + tagLength then
    ("", "", some DecodeErr.tooShortForTag)
  else if siteCodeStart + siteCodeLength > bits.length then
    ("", "", some DecodeErr.siteRangeExceeds)
  else if bits.any (fun bit => bit != 0 && bit != 1) then
    ("", "", some DecodeErr.invalidBitValue)
  else
    (toString (accumBits bits siteCodeStart siteCodeLength),
     toString (accumBits bits tagStart tagLength), none)

/-- Embedding of the frame-processing step of `processData` (the body run on the
snapshot `data` taken when the silence timeout fires): the empty-frame guard,
the `switch len(data)` over the supported layouts, and for each layout the
`decodeBits` call `tag, site, err := decodeBits(data, ...)` (note: the first
return value of `decodeBits`, its `siteCode`, is bound to `tag`), the two
parity checks, and the callback dispatch.  `some s` means the callback is
invoked exactly once with argument `s`; `none` means no callback and no error. -/
def processFrame (data : List Nat) : Option String :=
  if data.length = 0 then none
  else if data.length = 26 then
    match decodeBits data 1 8 9 16 with
    | (_, _, some _) => none
    | (tag, _site, none) =>
      if !(checkParity data 0 13 true) || !(checkParity data 13 13 false) then none
      else some tag
  else if data.length = 34 then
    match decodeBits data 1 17 18 16 with
    | (_, _, some _) => none
    | (tag, _site, none) =>
      if !(checkParity data 0 17 true) || !(checkParity data 17 17 false) then none
      else some tag
  else if data.length = 37 then
    match decodeBits data 1 19 20 16 with
    | (_, _, some _) => none
    | (tag, _site, none) =>
      if !(checkParity data 0 19 true) || !(checkParity data 19 18 false) then none
      else some tag
  else none

/-! ## Specification-side definitions (from the spec's words, for comparison) -/

/-- Spec: the value of a bit list read as a big-endian unsigned binary number,
first bit most significant. -/
def bitsVal (l : List Nat) : Nat := l.foldl (fun acc b => 2 * acc + b) 0

/-- Spec: the big-endian unsigned value of the field `bits[start .. start+length)`. -/
def fieldVal (bits : List Nat) (start length : Nat) : Nat :=
  bitsVal ((bits.drop start).take length)

/-- Spec: the number of 1-bits at indices in `[start, start+length)`. -/
def onesInRange (bits : List Nat) (start length : Nat) : Nat :=
  ((Finset.Ico start (start + length)).filter (fun i => bits.getD i 0 = 1)).card

/-- Flip the bit at index `i`: a 1 becomes 0 and anything else becomes 1
(on 0/1 data this is the single-bit flip). -/
def flipAt (bits : List Nat) (i : Nat) : List Nat :=
  bits.set i (if bits.getD i 0 = 1 then 0 else 1)

/-! ## Arithmetic infrastructure -/

lemma two_mul_lor_one (k : Nat) : 2 * k ||| 1 = 2 * k + 1 := by
  apply Nat.eq_of_testBit_eq
  intro i
  rw [Nat.testBit_lor]
  cases i with
  | zero =>
      simp only [Nat.testBit_zero]
      have h1 : 2 * k % 2 = 0 := by omega
      have h2 : (2 * k + 1) % 2 = 1 := by omega
      simp [h1, h2]
  | succ j =>
      rw [Nat.testBit_succ, Nat.testBit_succ, Nat.testBit_succ]
      have h1 : 2 * k / 2 = k := by omega
      have h2 : (2 * k + 1) / 2 = k := by omega
      have h3 : (1 : Nat) / 2 = 0 := by omega
      rw [h1, h2, h3]
      simp

lemma lor_even_add (x b : Nat) (hx : x % 2 = 0) (hb : b ≤ 1) : x ||| b = x + b := by
  match b, hb with
  | 0, _ => simp
  | 1, _ =>
      obtain ⟨k, rfl⟩ : ∃ k, x = 2 * k := ⟨x / 2, by omega⟩
      exact two_mul_lor_one k

lemma step_mod (x b : Nat) (hb : b ≤ 1) :
    ((x % u64) * 2) % u64 ||| b = (2 * x + b) % u64 := by
  have hM : u64 = 18446744073709551616 := by norm_num [u64]
  have h2 : (2 : Nat) ∣ u64 := ⟨2 ^ 63, by norm_num [u64]⟩
  have he : (((x % u64) * 2) % u64) % 2 = 0 := by
    rw [Nat.mod_mod_of_dvd _ h2, Nat.mul_mod_left]
  rw [lor_even_add _ _ he hb, hM]
  omega

lemma accumBits_succ (bits : List Nat) (s l : Nat) :
    accumBits bits s (l + 1) = ((accumBits bits s l * 2) % u64) ||| bits.getD (s + l) 0 := by
  unfold accumBits
  rw [List.range_succ, List.foldl_append]
  rfl

lemma getD_eq_getElem (bits : List Nat) (n : Nat) (h : n < bits.length) :
    bits.getD n 0 = bits[n] := by
  rw [List.getD_eq_getElem?_getD, List.getElem?_eq_getElem h]
  rfl

lemma fieldVal_succ (bits : List Nat) (s l : Nat) (h : s + l < bits.length) :
    fieldVal bits s (l + 1) = 2 * fieldVal bits s l + bits.getD (s + l) 0 := by
  unfold fieldVal bitsVal
  have hl : l < (bits.drop s).length := by
    rw [List.length_drop]; omega
  rw [List.take_succ, List.getElem?_eq_getElem hl, List.foldl_append]
  have hget : (bits.drop s)[l] = bits[s + l] := by
    rw [List.getElem_drop]
  rw [getD_eq_getElem bits (s + l) h, ← hget]
  rfl

lemma getD_mem_le_one (bits : List Nat) (hb : ∀ x ∈ bits, x = 0 ∨ x = 1) (n : Nat)
    (h : n < bits.length) : bits.getD n 0 ≤ 1 := by
  rw [getD_eq_getElem bits n h]
  rcases hb bits[n] (bits.getElem_mem h) with h0 | h1 <;> omega

lemma accumBits_eq_mod (bits : List Nat) (s l : Nat) (hb : ∀ x ∈ bits, x = 0 ∨ x = 1)
    (h : s + l ≤ bits.length) : accumBits bits s l = fieldVal bits s l % u64 := by
  induction l with
  | zero => simp [accumBits, fieldVal, bitsVal]
  | succ l ih =>
      have h' : s + l ≤ bits.length := by omega
      have hlt : s + l < bits.length := by omega
      rw [accumBits_succ, ih h', fieldVal_succ bits s l hlt]
      exact step_mod _ _ (getD_mem_le_one bits hb (s + l) hlt)

lemma bitsVal_lt (L : List Nat) (hb : ∀ x ∈ L, x ≤ 1) : bitsVal L < 2 ^ L.length := by
  suffices h : ∀ a, L.foldl (fun acc b => 2 * acc + b) a < (a + 1) * 2 ^ L.length by
    have := h 0
    simpa [bitsVal] using this
  induction L with
  | nil => intro a; simp
  | cons x xs ih =>
      intro a
      have hx : x ≤ 1 := hb x (by simp)
      have hxs : ∀ y ∈ xs, y ≤ 1 := fun y hy => hb y (by simp [hy])
      have h1 := ih hxs (2 * a + x)
      have h2 : (2 * a + x + 1) * 2 ^ xs.length ≤ (a + 1) * 2 ^ (xs.length + 1) := by
        have : 2 * a + x + 1 ≤ 2 * (a + 1) := by omega
        calc (2 * a + x + 1) * 2 ^ xs.length ≤ 2 * (a + 1) * 2 ^ xs.length :=
              Nat.mul_le_mul_right _ this
          _ = (a + 1) * 2 ^ (xs.length + 1) := by ring
      calc (x :: xs).foldl (fun acc b => 2 * acc + b) a
          = xs.foldl (fun acc b => 2 * acc + b) (2 * a + x) := by simp
        _ < (2 * a + x + 1) * 2 ^ xs.length := h1
        _ ≤ (a + 1) * 2 ^ (xs.length + 1) := h2
        _ = (a + 1) * 2 ^ (x :: xs).length := by simp

lemma fieldVal_lt (bits : List Nat) (s l : Nat) (hb : ∀ x ∈ bits, x = 0 ∨ x = 1)
    (h : s + l ≤ bits.length) : fieldVal bits s l < 2 ^ l := by
  have hsub : ∀ x ∈ (bits.drop s).take l, x ≤ 1 := by
    intro x hx
    have hmem : x ∈ bits :=
      ((bits.drop s).take_sublist l).mem hx |> (bits.drop_sublist s).mem
    rcases hb x hmem with h0 | h1 <;> omega
  have hlen : ((bits.drop s).take l).length = l := by
    rw [List.length_take, List.length_drop]; omega
  have := bitsVal_lt ((bits.drop s).take l) hsub
  rw [hlen] at this
  exact this

lemma accumBits_eq_fieldVal (bits : List Nat) (s l : Nat) (hb : ∀ x ∈ bits, x = 0 ∨ x = 1)
    (h : s + l ≤ bits.length) (hl : l ≤ 64) : accumBits bits s l = fieldVal bits s l := by
  rw [accumBits_eq_mod bits s l hb h]
  apply Nat.mod_eq_of_lt
  calc fieldVal bits s l < 2 ^ l := fieldVal_lt bits s l hb h
    _ ≤ 2 ^ 64 := Nat.pow_le_pow_right (by omega) hl
    _ = u64 := rfl

/-! ## Parity infrastructure -/

lemma onesInRange_sum (bits : List Nat) (s l : Nat) :
    onesInRange bits s l =
      ∑ i in Finset.Ico s (s + l), (if bits.getD i 0 = 1 then 1 else 0) := by
  unfold onesInRange
  rw [Finset.card_filter]

lemma count_take_drop (bits : List Nat) (s l : Nat) (h : s + l ≤ bits.length) :
    ((bits.drop s).take l).count 1 = onesInRange bits s l := by
  induction l with
  | zero => simp [onesInRange]
  | succ l ih =>
      have h' : s + l ≤ bits.length := by omega
      have hlt : s + l < bits.length := by omega
      have hl : l < (bits.drop s).length := by
        rw [List.length_drop]; omega
      have hget : (bits.drop s)[l] = bits[s + l] := by
        rw [List.getElem_drop]
      have hR : onesInRange bits s (l + 1) =
          onesInRange bits s l + (if bits.getD (s + l) 0 = 1 then 1 else 0) := by
        rw [onesInRange_sum, onesInRange_sum, show s + (l + 1) = (s + l) + 1 by omega,
          Finset.sum_Ico_succ_top (by omega)]
      rw [hR, List.take_succ, List.getElem?_eq_getElem hl]
      simp only [Option.toList_some, List.count_append, List.count_cons, List.count_nil,
        ih h', hget]
      rw [getD_eq_getElem bits (s + l) hlt]
      by_cases hx : bits[s + l] = 1
      · simp [hx]
      · simp [hx]

lemma checkParity_eq (bits : List Nat) (s l : Nat) (e : Bool) (h : s + l ≤ bits.length) :
    checkParity bits s l e =
      (if e then onesInRange bits s l % 2 == 0 else onesInRange bits s l % 2 == 1) := by
  unfold checkParity
  rw [if_neg (by omega), count_take_drop bits s l h]

lemma length_flipAt (bits : List Nat) (j : Nat) : (flipAt bits j).length = bits.length :=
  List.length_set ..

lemma getD_flipAt_ne (bits : List Nat) (i j : Nat) (hne : i ≠ j) :
    (flipAt bits j).getD i 0 = bits.getD i 0 := by
  unfold flipAt
  simp only [List.getD_eq_getElem?_getD]
  rw [List.getElem?_set_ne (Ne.symm hne)]

lemma getD_flipAt_self (bits : List Nat) (j : Nat) (h : j < bits.length) :
    (flipAt bits j).getD j 0 = (if bits.getD j 0 = 1 then 0 else 1) := by
  unfold flipAt
  rw [List.getD_eq_getElem?_getD, List.getElem?_set_self h]
  rfl

lemma mem_flipAt_valid (bits : List Nat) (j : Nat) (hb : ∀ x ∈ bits, x = 0 ∨ x = 1) :
    ∀ x ∈ flipAt bits j, x = 0 ∨ x = 1 := by
  intro x hx
  rcases List.mem_or_eq_of_mem_set hx with hmem | heq
  · exact hb x hmem
  · by_cases h1 : bits.getD j 0 = 1
    · rw [if_pos h1] at heq; omega
    · rw [if_neg h1] at heq; omega

lemma onesInRange_flipAt (bits : List Nat) (s l j : Nat) (hs : s ≤ j) (hj : j < s + l)
    (h : s + l ≤ bits.length) :
    onesInRange (flipAt bits j) s l % 2 = (onesInRange bits s l + 1) % 2 := by
  have hj' : j < bits.length := by omega
  have hmem : j ∈ Finset.Ico s (s + l) := by simp [Finset.mem_Ico]; omega
  rw [onesInRange_sum, onesInRange_sum]
  rw [← Finset.add_sum_erase _ _ hmem, ← Finset.add_sum_erase _ _ hmem]
  have hsum : ∑ i in (Finset.Ico s (s + l)).erase j,
        (if (flipAt bits j).getD i 0 = 1 then 1 else 0) =
      ∑ i in (Finset.Ico s (s + l)).erase j, (if bits.getD i 0 = 1 then 1 else 0) :=
    Finset.sum_congr rfl
      (fun i hi => by rw [getD_flipAt_ne bits i j (Finset.ne_of_mem_erase hi)])
  rw [hsum, getD_flipAt_self bits j hj']
  by_cases hb : bits.getD j 0 = 1
  · rw [if_pos hb, if_pos hb, if_neg (by omega)]
    omega
  · rw [if_neg hb, if_neg hb, if_pos rfl]
    omega

lemma checkParity_flipAt (bits : List Nat) (s l j : Nat) (e : Bool) (hs : s ≤ j)
    (hj : j < s + l) (h : s + l ≤ bits.length) (hp : checkParity bits s l e = true) :
    checkParity (flipAt bits j) s l e = false := by
  have h2 : s + l ≤ (flipAt bits j).length := by rw [length_flipAt]; exact h
  cases e with
  | true =>
      rw [checkParity_eq _ _ _ _ h2, onesInRange_flipAt bits s l j hs hj h]
      rw [checkParity_eq _ _ _ _ h] at hp
      rw [if_pos rfl] at hp ⊢
      rw [beq_iff_eq] at hp
      rw [beq_eq_false_iff_ne]
      omega
  | false =>
      rw [checkParity_eq _ _ _ _ h2, onesInRange_flipAt bits s l j hs hj h]
      rw [checkParity_eq _ _ _ _ h] at hp
      rw [if_neg (by simp)] at hp ⊢
      rw [beq_iff_eq] at hp
      rw [beq_eq_false_iff_ne]
      omega

/-! ## decodeBits and processFrame infrastructure -/

lemma any_invalid_false (bits : List Nat) (hv : ∀ x ∈ bits, x = 0 ∨ x = 1) :
    bits.any (fun bit => bit != 0 && bit != 1) = false := by
  rw [List.any_eq_false]
  intro x hx
  rcases hv x hx with h | h <;> simp [h]

lemma decodeBits_ok (bits : List Nat) (a b c d : Nat) (hv : ∀ x ∈ bits, x = 0 ∨ x = 1)
    (hc : c + d ≤ bits.length) (ha : a + b ≤ bits.length) :
    decodeBits bits a b c d =
      (toString (accumBits bits a b), toString (accumBits bits c d), none) := by
  unfold decodeBits
  rw [if_neg (by omega), if_neg (by omega),
    if_neg (by simp [any_invalid_false bits hv])]

lemma decodeBits_none_bits (bits : List Nat) (a b c d : Nat)
    (h : (decodeBits bits a b c d).2.2 = none) : ∀ x ∈ bits, x = 0 ∨ x = 1 := by
  unfold decodeBits at h
  split at h
  · simp at h
  split at h
  · simp at h
  split at h
  · simp at h
  next hany =>
    intro x hx
    by_contra hcon
    push_neg at hcon
    exact hany (List.any_eq_true.mpr ⟨x, hx, by simp [hcon.1, hcon.2]⟩)

lemma processFrame_inv (data : List Nat) (s0 : String) (h : processFrame data = some s0) :
    (data.length = 26 ∧ (decodeBits data 1 8 9 16).2.2 = none ∧
      (decodeBits data 1 8 9 16).1 = s0 ∧
      checkParity data 0 13 true = true ∧ checkParity data 13 13 false = true) ∨
    (data.length = 34 ∧ (decodeBits data 1 17 18 16).2.2 = none ∧
      (decodeBits data 1 17 18 16).1 = s0 ∧
      checkParity data 0 17 true = true ∧ checkParity data 17 17 false = true) ∨
    (data.length = 37 ∧ (decodeBits data 1 19 20 16).2.2 = none ∧
      (decodeBits data 1 19 20 16).1 = s0 ∧
      checkParity data 0 19 true = true ∧ checkParity data 19 18 false = true) := by
  by_cases h0 : data.length = 0
  · unfold processFrame at h
    rw [if_pos h0] at h
    simp at h
  by_cases h26 : data.length = 26
  · left
    unfold processFrame at h
    rw [if_neg h0, if_pos h26] at h
    rcases hdec : decodeBits data 1 8 9 16 with ⟨tag, site, err⟩
    rw [hdec] at h
    cases err with
    | some e => simp at h
    | none =>
        by_cases hc1 : checkParity data 0 13 true = true
        · by_cases hc2 : checkParity data 13 13 false = true
          · simp only [hc1, hc2, Bool.not_true, Bool.or_self, Bool.false_eq_true,
              if_false, Option.some.injEq] at h
            exact ⟨h26, rfl, h, hc1, hc2⟩
          · simp [hc2] at h
        · simp [hc1] at h
  by_cases h34 : data.length = 34
  · right; left
    unfold processFrame at h
    rw [if_neg h0, if_neg h26, if_pos h34] at h
    rcases hdec : decodeBits data 1 17 18 16 with ⟨tag, site, err⟩
    rw [hdec] at h
    cases err with
    | some e => simp at h
    | none =>
        by_cases hc1 : checkParity data 0 17 true = true
        · by_cases hc2 : checkParity data 17 17 false = true
          · simp only [hc1, hc2, Bool.not_true, Bool.or_self, Bool.false_eq_true,
              if_false, Option.some.injEq] at h
            exact ⟨h34, rfl, h, hc1, hc2⟩
          · simp [hc2] at h
        · simp [hc1] at h
  by_cases h37 : data.length = 37
  · right; right
    unfold processFrame at h
    rw [if_neg h0, if_neg h26, if_neg h34, if_pos h37] at h
    rcases hdec : decodeBits data 1 19 20 16 with ⟨tag, site, err⟩
    rw [hdec] at h
    cases err with
    | some e => simp at h
    | none =>
        by_cases hc1 : checkParity data 0 19 true = true
        · by_cases hc2 : checkParity data 19 18 false = true
          · simp only [hc1, hc2, Bool.not_true, Bool.or_self, Bool.false_eq_true,
              if_false, Option.some.injEq] at h
            exact ⟨h37, rfl, h, hc1, hc2⟩
          · simp [hc2] at h
        · simp [hc1] at h
  · unfold processFrame at h
    rw [if_neg h0, if_neg h26, if_neg h34, if_neg h37] at h
    simp at h

lemma processFrame_26_some (data : List Nat) (hlen : data.length = 26)
    (hv : ∀ x ∈ data, x = 0 ∨ x = 1)
    (h1 : checkParity data 0 13 true = true) (h2 : checkParity data 13 13 false = true) :
    processFrame data = some (toString (accumBits data 1 8)) := by
  unfold processFrame
  rw [if_neg (by omega), if_pos hlen,
    decodeBits_ok data 1 8 9 16 hv (by omega) (by omega)]
  simp [h1, h2]

lemma processFrame_26_noparity (data : List Nat) (hlen : data.length = 26)
    (hfail : checkParity data 0 13 true = false ∨ checkParity data 13 13 false = false) :
    processFrame data = none := by
  unfold processFrame
  rw [if_neg (by omega), if_pos hlen]
  rcases hdec : decodeBits data 1 8 9 16 with ⟨tag, site, err⟩
  cases err with
  | some e => rfl
  | none =>
      rcases hfail with hf | hf <;> simp [hf]

lemma processFrame_34_noparity (data : List Nat) (hlen : data.length = 34)
    (hfail : checkParity data 0 17 true = false ∨ checkParity data 17 17 false = false) :
    processFrame data = none := by
  unfold processFrame
  rw [if_neg (by omega), if_neg (by omega), if_pos hlen]
  rcases hdec : decodeBits data 1 17 18 16 with ⟨tag, site, err⟩
  cases err with
  | some e => rfl
  | none =>
      rcases hfail with hf | hf <;> simp [hf]

lemma processFrame_37_noparity (data : List Nat) (hlen : data.length = 37)
    (hfail : checkParity data 0 19 true = false ∨ checkParity data 19 18 false = false) :
    processFrame data = none := by
  unfold processFrame
  rw [if_neg (by omega), if_neg (by omega), if_neg (by omega), if_pos hlen]
  rcases hdec : decodeBits data 1 19 20 16 with ⟨tag, site, err⟩
  cases err with
  | some e => rfl
  | none =>
      rcases hfail with hf | hf <;> simp [hf]

/-! ## Claims -/

/-- C1, counterexample: for the concrete valid 26-bit frame below, the callback
argument produced by the frame-processing step is the decimal string of the range
`(1, 8)` passed as the site-code range to `decodeBits`, and is NOT the decimal
string of the range `(9, 16)` passed as its tag range: the call site binds the
returned `(siteCode, tagValue)` pair in swapped order. -/
theorem c1_tag_is_site_range :
    processFrame [1, 0, 0, 0, 0, 0, 0, 1, 0, 0, 0, 0, 0,
        0, 0, 0, 0, 0, 0, 0, 0, 0, 1, 0, 1, 1] =
      some (toString (fieldVal [1, 0, 0, 0, 0, 0, 0, 1, 0, 0, 0, 0, 0,
        0, 0, 0, 0, 0, 0, 0, 0, 0, 1, 0, 1, 1] 1 8)) ∧
    processFrame [1, 0, 0, 0, 0, 0, 0, 1, 0, 0, 0, 0, 0,
        0, 0, 0, 0, 0, 0, 0, 0, 0, 1, 0, 1, 1] ≠
      some (toString (fieldVal [1, 0, 0, 0, 0, 0, 0, 1, 0, 0, 0, 0, 0,
        0, 0, 0, 0, 0, 0, 0, 0, 0, 1, 0, 1, 1] 9 16)) := by
  constructor
  · decide
  · decide

/-- C1 (amended): for every successfully validated frame of any supported
length, the callback is invoked with exactly one argument, the decimal string
of the big-endian value of the range passed as the site-code range to
`decodeBits` — `(1, 8)` for the 26-bit layout, `(1, 17)` for the 34-bit layout
and `(1, 19)` for the 37-bit layout — which the call site rebinds as the tag;
the value of the range passed as the tag range is computed as the second return
value and never delivered. -/
theorem c1_callback_value (data : List Nat) (s0 : String)
    (h : processFrame data = some s0) :
    (data.length = 26 ∧ s0 = toString (fieldVal data 1 8)) ∨
    (data.length = 34 ∧ s0 = toString (fieldVal data 1 17)) ∨
    (data.length = 37 ∧ s0 = toString (fieldVal data 1 19)) := by
  rcases processFrame_inv data s0 h with ⟨hlen, hdec, htag, _, _⟩ | ⟨hlen, hdec, htag, _, _⟩ |
    ⟨hlen, hdec, htag, _, _⟩
  · left
    have hv := decodeBits_none_bits data 1 8 9 16 hdec
    refine ⟨hlen, ?_⟩
    rw [← htag, decodeBits_ok data 1 8 9 16 hv (by omega) (by omega),
      accumBits_eq_fieldVal data 1 8 hv (by omega) (by omega)]
  · right; left
    have hv := decodeBits_none_bits data 1 17 18 16 hdec
    refine ⟨hlen, ?_⟩
    rw [← htag, decodeBits_ok data 1 17 18 16 hv (by omega) (by omega),
      accumBits_eq_fieldVal data 1 17 hv (by omega) (by omega)]
  · right; right
    have hv := decodeBits_none_bits data 1 19 20 16 hdec
    refine ⟨hlen, ?_⟩
    rw [← htag, decodeBits_ok data 1 19 20 16 hv (by omega) (by omega),
      accumBits_eq_fieldVal data 1 19 hv (by omega) (by omega)]

/-- C1, witness: the amended theorem applied to a concrete validated 26-bit
frame, whose callback argument is the decimal string of its site-code range. -/
theorem c1_callback_value_witness :
    (([1, 0, 0, 0, 0, 0, 0, 1, 0, 0, 0, 0, 0,
        0, 0, 0, 0, 0, 0, 0, 0, 0, 1, 0, 1, 1] : List Nat).length = 26 ∧
      "2" = toString (fieldVal [1, 0, 0, 0, 0, 0, 0, 1, 0, 0, 0, 0, 0,
        0, 0, 0, 0, 0, 0, 0, 0, 0, 1, 0, 1, 1] 1 8)) ∨
    (([1, 0, 0, 0, 0, 0, 0, 1, 0, 0, 0, 0, 0,
        0, 0, 0, 0, 0, 0, 0, 0, 0, 1, 0, 1, 1] : List Nat).length = 34 ∧
      "2" = toString (fieldVal [1, 0, 0, 0, 0, 0, 0, 1, 0, 0, 0, 0, 0,
        0, 0, 0, 0, 0, 0, 0, 0, 0, 1, 0, 1, 1] 1 17)) ∨
    (([1, 0, 0, 0, 0, 0, 0, 1, 0, 0, 0, 0, 0,
        0, 0, 0, 0, 0, 0, 0, 0, 0, 1, 0, 1, 1] : List Nat).length = 37 ∧
      "2" = toString (fieldVal [1, 0, 0, 0, 0, 0, 0, 1, 0, 0, 0, 0, 0,
        0, 0, 0, 0, 0, 0, 0, 0, 0, 1, 0, 1, 1] 1 19)) :=
  c1_callback_value [1, 0, 0, 0, 0, 0, 0, 1, 0, 0, 0, 0, 0,
        0, 0, 0, 0, 0, 0, 0, 0, 0, 1, 0, 1, 1] "2" (by decide)

/-- C2, counterexample: `decodeBits` accumulates fields in a Go `uint64`, so a
65-bit field wraps modulo `2 ^ 64`: on the 65-bit input `1` followed by 64
zeros, with both ranges `(0, 65)`, it returns `"0"`, not the decimal string of
the big-endian value `2 ^ 64` of the selected bits. -/
theorem c2_uint64_wraps :
    decodeBits (1 :: List.replicate 64 0) 0 65 0 65 = ("0", "0", none) ∧
    (decodeBits (1 :: List.replicate 64 0) 0 65 0 65).2.1 ≠
      toString (fieldVal (1 :: List.replicate 64 0) 0 65) := by
  constructor
  · decide
  · decide

/-- C2 (amended): for every 0/1 bit sequence and in-bounds ranges whose lengths
are at most 64 (so the `uint64` accumulator cannot wrap), `decodeBits` returns
without error the decimal strings of the big-endian unsigned values of the
site-code range and of the tag range, first selected bit most significant. -/
theorem c2_decodeBits_fields (bits : List Nat) (s1 l1 s2 l2 : Nat)
    (hv : ∀ x ∈ bits, x = 0 ∨ x = 1) (hs : s1 + l1 ≤ bits.length)
    (ht : s2 + l2 ≤ bits.length) (hl1 : l1 ≤ 64) (hl2 : l2 ≤ 64) :
    decodeBits bits s1 l1 s2 l2 =
      (toString (fieldVal bits s1 l1), toString (fieldVal bits s2 l2), none) := by
  rw [decodeBits_ok bits s1 l1 s2 l2 hv ht hs,
    accumBits_eq_fieldVal bits s1 l1 hv hs hl1,
    accumBits_eq_fieldVal bits s2 l2 hv ht hl2]

/-- C2, witness: the amended theorem applied to a concrete input. -/
theorem c2_decodeBits_fields_witness :
    decodeBits [1, 0, 1] 0 2 1 2 =
      (toString (fieldVal [1, 0, 1] 0 2), toString (fieldVal [1, 0, 1] 1 2), none) :=
  c2_decodeBits_fields [1, 0, 1] 0 2 1 2 (by decide) (by decide) (by decide)
    (by decide) (by decide)

/-- C3: the frame-processing step never consults the configured maximum bit
count: a 34-bit frame, longer than the default maximum of 26 bits, is decoded
anyway and produces a callback invocation — contradicting the claimed
discard-on-overflow invariant (the claim is right about the intent; the code
dropped the check that the older revision still had). -/
theorem c3_overflow_frame_decoded :
    (List.replicate 17 0 ++ 1 :: List.replicate 16 0).length = 34 ∧
    DefaultMaxBits = 26 ∧
    processFrame (List.replicate 17 0 ++ 1 :: List.replicate 16 0) = some "1" := by
  refine ⟨by decide, rfl, by decide⟩

/-- C4: every non-empty frame whose length is not 26, 34 or 37 produces no
result, no callback invocation, and no error (the step is a total function
returning `none`). -/
theorem c4_unrecognized_length_none (data : List Nat) (_hne : data ≠ [])
    (h26 : data.length ≠ 26) (h34 : data.length ≠ 34) (h37 : data.length ≠ 37) :
    processFrame data = none := by
  unfold processFrame
  by_cases h0 : data.length = 0
  · rw [if_pos h0]
  · rw [if_neg h0, if_neg h26, if_neg h34, if_neg h37]

/-- C4, witness: the theorem applied to a concrete 3-bit frame. -/
theorem c4_unrecognized_length_none_witness : processFrame [1, 0, 1] = none :=
  c4_unrecognized_length_none [1, 0, 1] (by decide) (by decide) (by decide) (by decide)

/-- C5: for every in-bounds range, the even-parity check succeeds iff the number
of 1-bits in the range is even and the odd-parity check succeeds iff it is odd;
and a frame is accepted (callback produced) only if both the leading and the
trailing parity range of its layout pass their respective check. -/
theorem c5_parity_rules :
    (∀ (bits : List Nat) (s l : Nat), s + l ≤ bits.length →
      ((checkParity bits s l true = true ↔ onesInRange bits s l % 2 = 0) ∧
       (checkParity bits s l false = true ↔ onesInRange bits s l % 2 = 1))) ∧
    (∀ (data : List Nat) (s0 : String), processFrame data = some s0 →
      ((data.length = 26 →
          checkParity data 0 13 true = true ∧ checkParity data 13 13 false = true) ∧
       (data.length = 34 →
          checkParity data 0 17 true = true ∧ checkParity data 17 17 false = true) ∧
       (data.length = 37 →
          checkParity data 0 19 true = true ∧ checkParity data 19 18 false = true))) := by
  constructor
  · intro bits s l h
    constructor
    · rw [checkParity_eq bits s l true h, if_pos rfl]
      simp
    · rw [checkParity_eq bits s l false h, if_neg (by simp)]
      simp
  · intro data s0 h
    rcases processFrame_inv data s0 h with ⟨h1, _, _, hc1, hc2⟩ | ⟨h1, _, _, hc1, hc2⟩ |
      ⟨h1, _, _, hc1, hc2⟩
    · exact ⟨fun _ => ⟨hc1, hc2⟩, fun hx => by omega, fun hx => by omega⟩
    · exact ⟨fun hx => by omega, fun _ => ⟨hc1, hc2⟩, fun hx => by omega⟩
    · exact ⟨fun hx => by omega, fun hx => by omega, fun _ => ⟨hc1, hc2⟩⟩

/-- C5, witness: the parity characterization applied to a concrete range. -/
theorem c5_parity_rules_witness :
    checkParity [1, 1, 0] 0 2 true = true ↔ onesInRange [1, 1, 0] 0 2 % 2 = 0 :=
  (c5_parity_rules.1 [1, 1, 0] 0 2 (by decide)).1

/-- C6: flipping any single bit at an index inside the leading or the trailing
parity range of a frame that the step accepts yields a frame the step rejects:
no callback is produced for the flipped frame. -/
theorem c6_bitflip_rejected (data : List Nat) (s0 : String) (j : Nat)
    (h : processFrame data = some s0)
    (hj : (data.length = 26 ∧ (j < 13 ∨ (13 ≤ j ∧ j < 26))) ∨
          (data.length = 34 ∧ (j < 17 ∨ (17 ≤ j ∧ j < 34))) ∨
          (data.length = 37 ∧ (j < 19 ∨ (19 ≤ j ∧ j < 37)))) :
    processFrame (flipAt data j) = none := by
  rcases processFrame_inv data s0 h with ⟨hlen, hdec, _, hc1, hc2⟩ | ⟨hlen, hdec, _, hc1, hc2⟩ |
    ⟨hlen, hdec, _, hc1, hc2⟩
  · have hlen' : (flipAt data j).length = 26 := by rw [length_flipAt]; exact hlen
    rcases hj with ⟨_, hr⟩ | ⟨hbad, _⟩ | ⟨hbad, _⟩
    · apply processFrame_26_noparity _ hlen'
      rcases hr with hr | hr
      · exact Or.inl (checkParity_flipAt data 0 13 j true (by omega) (by omega) (by omega) hc1)
      · exact Or.inr (checkParity_flipAt data 13 13 j false (by omega) (by omega) (by omega) hc2)
    · omega
    · omega
  · have hlen' : (flipAt data j).length = 34 := by rw [length_flipAt]; exact hlen
    rcases hj with ⟨hbad, _⟩ | ⟨_, hr⟩ | ⟨hbad, _⟩
    · omega
    · apply processFrame_34_noparity _ hlen'
      rcases hr with hr | hr
      · exact Or.inl (checkParity_flipAt data 0 17 j true (by omega) (by omega) (by omega) hc1)
      · exact Or.inr (checkParity_flipAt data 17 17 j false (by omega) (by omega) (by omega) hc2)
    · omega
  · have hlen' : (flipAt data j).length = 37 := by rw [length_flipAt]; exact hlen
    rcases hj with ⟨hbad, _⟩ | ⟨hbad, _⟩ | ⟨_, hr⟩
    · omega
    · omega
    · apply processFrame_37_noparity _ hlen'
      rcases hr with hr | hr
      · exact Or.inl (checkParity_flipAt data 0 19 j true (by omega) (by omega) (by omega) hc1)
      · exact Or.inr (checkParity_flipAt data 19 18 j false (by omega) (by omega) (by omega) hc2)

/-- C6, witness: flipping bit 0 of a concrete valid 26-bit frame suppresses the
result. -/
theorem c6_bitflip_rejected_witness :
    processFrame (flipAt [0, 0, 0, 0, 0, 0, 0, 0, 0, 0, 0, 0, 0,
      0, 0, 0, 0, 0, 0, 0, 0, 0, 0, 0, 0, 1] 0) = none :=
  c6_bitflip_rejected [0, 0, 0, 0, 0, 0, 0, 0, 0, 0, 0, 0, 0,
      0, 0, 0, 0, 0, 0, 0, 0, 0, 0, 0, 0, 1] "0" 0 (by decide)
    (Or.inl ⟨by decide, Or.inl (by decide)⟩)

/-- C7: whenever the site-code range or the tag range exceeds the input length,
`decodeBits` fails with one of the two range errors, returning empty site and
tag strings. -/
theorem c7_range_error (bits : List Nat) (a b c d : Nat)
    (h : c + d > bits.length ∨ a + b > bits.length) :
    decodeBits bits a b c d = ("", "", some DecodeErr.tooShortForTag) ∨
    decodeBits bits a b c d = ("", "", some DecodeErr.siteRangeExceeds) := by
  unfold decodeBits
  by_cases h1 : bits.length < c + d
  · left
    rw [if_pos h1]
  · right
    have h2 : a + b > bits.length := by omega
    rw [if_neg h1, if_pos h2]

/-- C7, witness: the theorem applied to a concrete out-of-range call. -/
theorem c7_range_error_witness :
    decodeBits [1] 0 1 0 2 = ("", "", some DecodeErr.tooShortForTag) ∨
    decodeBits [1] 0 1 0 2 = ("", "", some DecodeErr.siteRangeExceeds) :=
  c7_range_error [1] 0 1 0 2 (Or.inl (by decide))

/-- C8, counterexample: the range checks run before the bit-validity check, so
on the input `[2]` (which contains an element that is neither 0 nor 1) with an
out-of-bounds tag range, `decodeBits` fails with the range error, not with the
invalid-bit-value error the claim requires. -/
theorem c8_range_check_preempts :
    ((2 : Nat) ∈ [(2 : Nat)] ∧ (2 : Nat) ≠ 0 ∧ (2 : Nat) ≠ 1) ∧
    decodeBits [2] 0 1 0 2 = ("", "", some DecodeErr.tooShortForTag) ∧
    decodeBits [2] 0 1 0 2 ≠ ("", "", some DecodeErr.invalidBitValue) := by
  refine ⟨by decide, by decide, by decide⟩

/-- C8 (amended): provided both ranges are in bounds (the range checks are
performed first), `decodeBits` fails with the invalid-bit-value error and
returns empty site and tag strings whenever some element of the input is
neither 0 nor 1. -/
theorem c8_invalid_bit_error (bits : List Nat) (a b c d : Nat)
    (hc : c + d ≤ bits.length) (ha : a + b ≤ bits.length)
    (hbad : ∃ x ∈ bits, x ≠ 0 ∧ x ≠ 1) :
    decodeBits bits a b c d = ("", "", some DecodeErr.invalidBitValue) := by
  obtain ⟨x, hx, h0, h1⟩ := hbad
  unfold decodeBits
  rw [if_neg (by omega), if_neg (by omega),
    if_pos (List.any_eq_true.mpr ⟨x, hx, by simp [h0, h1]⟩)]

/-- C8, witness: the amended theorem applied to a concrete in-range call with an
invalid bit. -/
theorem c8_invalid_bit_error_witness :
    decodeBits [2] 0 1 0 1 = ("", "", some DecodeErr.invalidBitValue) :=
  c8_invalid_bit_error [2] 0 1 0 1 (by decide) (by decide) (by decide)

/-- C9: on every 0/1 frame of length 26, 34 or 37, the `decodeBits` invocation
made by the corresponding switch arm returns without error: the internal-defect
branch is unreachable under that precondition. -/
theorem c9_layout_calls_ok (data : List Nat) (hv : ∀ x ∈ data, x = 0 ∨ x = 1) :
    (data.length = 26 → (decodeBits data 1 8 9 16).2.2 = none) ∧
    (data.length = 34 → (decodeBits data 1 17 18 16).2.2 = none) ∧
    (data.length = 37 → (decodeBits data 1 19 20 16).2.2 = none) := by
  refine ⟨fun h => ?_, fun h => ?_, fun h => ?_⟩ <;>
    rw [decodeBits_ok data _ _ _ _ hv (by omega) (by omega)]

/-- C9, witness: the theorem applied to the all-zero 26-bit frame. -/
theorem c9_layout_calls_ok_witness :
    (decodeBits (List.replicate 26 0) 1 8 9 16).2.2 = none :=
  (c9_layout_calls_ok (List.replicate 26 0) (by decide)).1 (by decide)

/-- C10: whenever the requested range exceeds the bit sequence, `checkParity`
returns `false` for both the even and the odd setting instead of reading out of
bounds; the embedded function is total. -/
theorem c10_checkParity_oob (bits : List Nat) (s l : Nat) (h : s + l > bits.length) :
    checkParity bits s l true = false ∧ checkParity bits s l false = false := by
  constructor <;> (unfold checkParity; rw [if_pos h])

/-- C10, witness: the theorem applied to a concrete out-of-bounds range. -/
theorem c10_checkParity_oob_witness :
    checkParity [1] 0 2 true = false ∧ checkParity [1] 0 2 false = false :=
  c10_checkParity_oob [1] 0 2 (by decide)

end Wiegand
